import Mathlib

/-
  Verification development for the `webprobe` crawler (src/index.ts).

  The crawler's core is embedded shallowly:
  * a model of the WHATWG URL objects the code builds with `new URL(...)`
    (restricted to hierarchical `scheme://host/path?query#frag` URLs,
    which is all the crawler's scope filter can ever accept: scope
    patterns are syntactically valid hostnames, so opaque-scheme URLs
    such as `mailto:` — whose hostname is empty — are observably
    equivalent to resolution failures and are modelled as such);
  * the `micromatch.isMatch` glob matcher restricted to the pattern
    alphabet of valid domain patterns (literals and `*`, no `/` in the
    input, which is a hostname);
  * the extension denylist filter `shouldSkipUrl`;
  * the anchor-acceptance logic of the crawl loop, the frontier
    (`links` / `visits` JS `Set`s, modelled as duplicate-free lists in
    insertion order), the random next-page selection
    `unvisited[Math.floor(Math.random() * unvisited.length)]`, and the
    bounded crawl loop itself;
  * the `page.on("response")` handler updating the request ledger
    (JS `Map`, modelled as an association list in insertion order with
    in-place overwrite) and the domain set.
-/

namespace Webprobe

/-- ASCII lowercasing of one character, as `String.prototype.toLowerCase`
and WHATWG host lowercasing act on the ASCII hostnames and paths the
crawler manipulates. -/
def lowerChar (c : Char) : Char :=
  if 65 ≤ c.toNat ∧ c.toNat ≤ 90 then Char.ofNat (c.toNat + 32) else c

/-- Split a character list at the first occurrence of one of the `stop`
characters; the stop character (if any) starts the second component. -/
def splitAtFirst (stop : List Char) : List Char → List Char × List Char
  | [] => ([], [])
  | c :: cs =>
    if c ∈ stop then ([], c :: cs)
    else
      let p := splitAtFirst stop cs
      (c :: p.1, p.2)

/-- Split a character list around the first occurrence of the literal
separator `://`; returns the part before it and the part after it. -/
def splitScheme : List Char → Option (List Char × List Char)
  | [] => none
  | ':' :: '/' :: '/' :: rest => some ([], rest)
  | c :: cs => (splitScheme cs).map fun p => (c :: p.1, p.2)

/-- True when the list has a `:` before any of `/`, `?`, `#`, i.e. the
string carries an explicit URL scheme. -/
def hasSchemeColon : List Char → Bool
  | [] => false
  | ':' :: _ => true
  | c :: cs => if c ∈ ['/', '?', '#'] then false else hasSchemeColon cs

/-- Model of the WHATWG `URL` object for hierarchical URLs: scheme,
lowercased host, path (starting with `/`), search (empty or starting
with `?`) and fragment (empty or starting with `#`).  Empty query and
fragment strings are identified with absent ones. -/
structure Url where
  scheme : List Char
  host : List Char
  path : List Char
  search : List Char
  frag : List Char
deriving DecidableEq

/-- Serialization of a `Url`, as the `href` property. -/
def Url.href (u : Url) : String :=
  String.mk (u.scheme ++ [':', '/', '/'] ++ u.host ++ u.path ++ u.search ++ u.frag)

/-- Normalize a fragment remainder: it is either empty or starts with
`#`; a lone `#` (empty fragment) is identified with no fragment. -/
def normFrag (cs : List Char) : List Char :=
  match cs with
  | '#' :: rest => if rest = [] then [] else cs
  | _ => []

/-- Parse the part of a URL string following the host into
(path, search, fragment); an empty path is normalized to `/` as WHATWG
does for special schemes. -/
def splitAfterHost (cs : List Char) : List Char × List Char × List Char :=
  let p := splitAtFirst ['?', '#'] cs
  let path := if p.1 = [] then ['/'] else p.1
  match p.2 with
  | '?' :: rest =>
    let q := splitAtFirst ['#'] rest
    (path, if q.1 = [] then [] else '?' :: q.1, normFrag q.2)
  | other => (path, [], normFrag other)

/-- Parse an absolute hierarchical URL string, as `new URL(s)` does;
`none` models a thrown `TypeError` (no scheme separator, empty scheme
or empty host). -/
def parseAbsolute (s : String) : Option Url :=
  match splitScheme s.toList with
  | none => none
  | some p =>
    if p.1 = [] then none
    else
      let hp := splitAtFirst ['/', '?', '#'] p.2
      if hp.1 = [] then none
      else
        let rest := splitAfterHost hp.2
        some ⟨p.1.map lowerChar, hp.1.map lowerChar, rest.1, rest.2.1, rest.2.2⟩

/-- The slice of a path up to and including its last `/`, used for
relative reference resolution. -/
def dirOf (path : List Char) : List Char :=
  (path.reverse.dropWhile (fun c => c ≠ '/')).reverse

/-- Model of `new URL(href, base)`: use `href` itself when it is an
absolute URL; otherwise resolve it against `base` (protocol-relative,
absolute-path, query-only, fragment-only and relative-path forms).
`none` models a thrown `TypeError`.  An href with an explicit scheme
that does not parse as a hierarchical URL is mapped to `none`: for
opaque schemes (`mailto:`, `javascript:`) the real `URL` succeeds with
an empty hostname, which no valid domain pattern can match, so the
observable effect on the crawler (the anchor contributes nothing) is
identical. -/
def resolve (href : String) (base : String) : Option Url :=
  match parseAbsolute href with
  | some u => some u
  | none =>
    if hasSchemeColon href.toList then none
    else
      match parseAbsolute base with
      | none => none
      | some b =>
        match href.toList with
        | [] => some { b with frag := [] }
        | '/' :: '/' :: rest =>
          parseAbsolute (String.mk (b.scheme ++ [':', '/', '/'] ++ rest))
        | '/' :: _ =>
          let rest := splitAfterHost href.toList
          some { b with path := rest.1, search := rest.2.1, frag := rest.2.2 }
        | '?' :: qs =>
          let q := splitAtFirst ['#'] qs
          some { b with search := if q.1 = [] then [] else '?' :: q.1,
                        frag := normFrag q.2 }
        | '#' :: fs => some { b with frag := normFrag ('#' :: fs) }
        | _ =>
          let rest := splitAfterHost href.toList
          some { b with path := dirOf b.path ++ rest.1,
                        search := rest.2.1, frag := rest.2.2 }

/-- Glob matching of a pattern against a string, modelling
`micromatch.isMatch(str, pattern)` for the pattern alphabet of valid
domain patterns: literal characters match themselves and `*` matches
any (possibly empty) run of characters.  The inputs are hostnames, so
they contain no `/` and do not start with `.`, making micromatch's
slash and leading-dot special cases unreachable. -/
def globMatch : List Char → List Char → Bool
  | [], s => s.isEmpty
  | p :: ps, s =>
    if p = '*' then s.tails.any fun t => globMatch ps t
    else
      match s with
      | [] => false
      | c :: cs => (p == c) && globMatch ps cs

/-- Scope test on a hostname given as a character list:
`domain.some((d) => micromatch.isMatch(hostname, d))` in the loop. -/
def isInScopeL (host : List Char) (patterns : List String) : Bool :=
  patterns.any fun p => globMatch p.toList host

/-- Scope test on a hostname string. -/
def isInScope (hostname : String) (patterns : List String) : Bool :=
  isInScopeL hostname.toList patterns

/-- The fixed denylist of extensions, `SKIP_EXTENSIONS` in src/index.ts. -/
def SKIP_EXTENSIONS : List String :=
  [".zip", ".tar", ".gz", ".tgz", ".rar", ".7z", ".bz2",
   ".pdf", ".doc", ".docx", ".xls", ".xlsx", ".ppt", ".pptx", ".odt",
   ".jpg", ".jpeg", ".png", ".gif", ".bmp", ".svg", ".webp", ".ico", ".tiff",
   ".mp3", ".wav", ".ogg", ".flac", ".aac", ".m4a",
   ".mp4", ".avi", ".mkv", ".mov", ".wmv", ".webm", ".flv",
   ".woff", ".woff2", ".ttf", ".otf", ".eot",
   ".json", ".xml", ".csv", ".rss", ".atom",
   ".exe", ".dmg", ".apk", ".deb", ".rpm", ".msi", ".bin", ".iso",
   ".map", ".wasm"]

/-- Extension test on a pathname:
`SKIP_EXTENSIONS.some((ext) => pathname.endsWith(ext))` after
lowercasing the pathname. -/
def skipPath (path : List Char) : Bool :=
  SKIP_EXTENSIONS.any fun ext => List.isSuffixOf ext.toList (path.map lowerChar)

/-- Model of `shouldSkipUrl` (src/index.ts:83): re-parse the URL string
and test its pathname, lowercased, against the denylist.  `none`
models the `TypeError` thrown by `new URL(url)` on a malformed input
(unreachable from the crawler, which only passes serialized hrefs). -/
def shouldSkipUrl (url : String) : Option Bool :=
  (parseAbsolute url).map fun u => skipPath u.path

/-- Crawl configuration: the seed URL (the `url` parameter of `probe`)
and the configured domain pattern list. -/
structure Config where
  seed : String
  domain : List String
deriving DecidableEq

/-- Clear the fragment component, as `absoluteUrl.hash = ""`. -/
def clearFrag (u : Url) : Url := { u with frag := [] }

/-- Processing of one non-empty anchor href in the crawl loop
(src/index.ts:308-317): resolve against the seed URL, clear the
fragment, then accept the serialized href iff the hostname matches a
scope pattern and the extension filter does not skip it.  `none` covers
both the swallowed resolution exception and rejection. -/
def acceptAnchor (cfg : Config) (href : String) : Option String :=
  match resolve href cfg.seed with
  | none => none
  | some u =>
    let u2 := clearFrag u
    if isInScopeL u2.host cfg.domain then
      match shouldSkipUrl u2.href with
      | some false => some u2.href
      | _ => none
    else none

/-- JS `Set.prototype.add`: append iff not already present (insertion
order preserved, duplicate-free). -/
def insertSet (xs : List String) (x : String) : List String :=
  if x ∈ xs then xs else xs ++ [x]

/-- Effect of one anchor href on the discovered-links set. -/
def processAnchor (cfg : Config) (links : List String) (href : String) : List String :=
  match acceptAnchor cfg href with
  | none => links
  | some l => insertSet links l

/-- Effect of a page's anchor list on the discovered-links set: hrefs
that are `null` or empty are skipped (`if (href)`), the rest go through
`processAnchor`. -/
def extractLinks (cfg : Config) (links : List String) : List (Option String) → List String
  | [] => links
  | none :: rest => extractLinks cfg links rest
  | some href :: rest =>
    if href = "" then extractLinks cfg links rest
    else extractLinks cfg (processAnchor cfg links href) rest

/-- What the page driver reports for one navigated page: whether
`page.goto` succeeded (it only affects logging) and the `href`
attributes of the page's anchors as the driver exposes them. -/
structure PageReport where
  navOk : Bool
  anchors : List (Option String)
deriving DecidableEq

/-- Crawl loop state: the discovered set `links`, the visited set
`visits` (both JS `Set`s in insertion order) and the current target
`nextUrl`. -/
structure CrawlState where
  links : List String
  visits : List String
  nextUrl : String
deriving DecidableEq

/-- One crawl iteration body up to frontier selection
(src/index.ts:289-319): mark the target visited, then fold the
reported anchors into the discovered set.  The navigation outcome
`rep.navOk` is not consulted (it only selects a log line). -/
def runVisit (cfg : Config) (st : CrawlState) (rep : PageReport) : CrawlState :=
  { links := extractLinks cfg st.links rep.anchors,
    visits := insertSet st.visits st.nextUrl,
    nextUrl := st.nextUrl }

/-- The frontier `[...links.difference(visits)]`, in insertion order of
`links`. -/
def unvisited (st : CrawlState) : List String :=
  st.links.filter fun l => !(decide (l ∈ st.visits))

/-- Index selection `Math.floor(r * n)` for a random draw `r`
(`Rat.floor` is the executable floor on `ℚ`; see `pickIndex_eq_floor`). -/
def pickIndex (r : ℚ) (n : ℕ) : ℕ :=
  (Rat.floor (r * (n : ℚ))).toNat

/-- Frontier selection at the end of an iteration
(src/index.ts:334-339): `none` signals exhaustion when the difference
is empty, otherwise the element at index `Math.floor(r * length)` is
chosen. -/
def nextUnvisited (st : CrawlState) (r : ℚ) : Option String :=
  if unvisited st = [] then none
  else some ((unvisited st).getD (pickIndex r (unvisited st).length) "")

/-- Replace the current target, keeping both sets. -/
def setNext (st : CrawlState) (next : String) : CrawlState :=
  ⟨st.links, st.visits, next⟩

/-- The crawl loop (src/index.ts:288-340), driven by the per-iteration
driver reports `input` and random draws `rand`.  Returns the list of
states at the end of each executed iteration (its length is the number
of navigations performed) and whether the loop stopped by frontier
exhaustion (`break`) rather than by the page budget. -/
def crawlGo (cfg : Config) (input : ℕ → PageReport) (rand : ℕ → ℚ) :
    ℕ → ℕ → CrawlState → List CrawlState × Bool
  | 0, _, _ => ([], false)
  | fuel + 1, i, st =>
    match nextUnvisited (runVisit cfg st (input i)) (rand i) with
    | none => ([runVisit cfg st (input i)], true)
    | some next =>
      let res := crawlGo cfg input rand fuel (i + 1)
        (setNext (runVisit cfg st (input i)) next)
      (runVisit cfg st (input i) :: res.1, res.2)

/-- Initial crawl state: empty sets, the seed as first target. -/
def initState (seed : String) : CrawlState := ⟨[], [], seed⟩

/-- A full run of the crawl loop with page budget `maxPages`. -/
def crawlRun (cfg : Config) (input : ℕ → PageReport) (rand : ℕ → ℚ)
    (maxPages : ℕ) : List CrawlState × Bool :=
  crawlGo cfg input rand maxPages 0 (initState cfg.seed)

/-- The per-iteration state trace of a full run. -/
def crawlTrace (cfg : Config) (input : ℕ → PageReport) (rand : ℕ → ℚ)
    (maxPages : ℕ) : List CrawlState :=
  (crawlRun cfg input rand maxPages).1

/-- JS `Map.prototype.set`: overwrite in place if the key is present,
else append (insertion order preserved). -/
def mapSet : List (String × ℕ) → String → ℕ → List (String × ℕ)
  | [], k, v => [(k, v)]
  | p :: rest, k, v => if p.1 = k then (k, v) :: rest else p :: mapSet rest k v

/-- JS `Map.prototype.get`. -/
def lookupStatus (m : List (String × ℕ)) (k : String) : Option ℕ :=
  (m.find? fun p => p.1 == k).map fun p => p.2

/-- State mutated by the response observer: the request ledger
`requests` and the hostname set `domains`. -/
structure LedgerState where
  requests : List (String × ℕ)
  domains : List String
deriving DecidableEq

/-- The `page.on("response")` handler (src/index.ts:269-284): parse the
response URL (a parse failure is swallowed and nothing changes), add
the hostname to the domain set unconditionally, and record
`url → status` in the ledger iff the hostname is an element of the
configured domain list (`domain.includes`, exact membership). -/
def onResponse (domain : List String) (st : LedgerState) (url : String)
    (status : ℕ) : LedgerState :=
  match parseAbsolute url with
  | none => st
  | some u =>
    { requests :=
        if String.mk u.host ∈ domain then mapSet st.requests url status
        else st.requests,
      domains := insertSet st.domains (String.mk u.host) }

/-- Folding a sequence of observed response events from the start of a
run (empty ledger, empty domain set). -/
def runResponses (domain : List String) (events : List (String × ℕ)) : LedgerState :=
  events.foldl (fun st e => onResponse domain st e.1 e.2) ⟨[], []⟩

/-- The canonical-accepted-link property: the string is the serialized
form of a fragment-free URL whose hostname matches the scope and which
the extension filter does not skip. -/
def acceptedLink (cfg : Config) (l : String) : Prop :=
  ∃ u : Url, l = u.href ∧ u.frag = [] ∧ isInScopeL u.host cfg.domain = true ∧
    shouldSkipUrl l = some false

/-- Example configuration: seed `https://example.com/`, scope
`["example.com"]`. -/
def cfgEx : Config := ⟨"https://example.com/", ["example.com"]⟩

/-- Example configuration with a seed that carries a fragment, a
denylisted extension and an out-of-scope hostname. -/
def cfgPdf : Config := ⟨"https://x.com/report.pdf#sec", ["example.com"]⟩

/-- Driver that reports successful navigations with no anchors. -/
def inputEmpty : ℕ → PageReport := fun _ => ⟨true, []⟩

/-- Driver whose navigations all fail but still expose one anchor
(e.g. content left over from a partially loaded or previous page). -/
def inputFailA : ℕ → PageReport := fun _ => ⟨false, [some "/a"]⟩

/-- A constant random stream (a legal value of `Math.random()`). -/
def randZero : ℕ → ℚ := fun _ => 0

/-- The parse of `https://example.com/a`. -/
def urlExA : Url := ⟨"https".toList, "example.com".toList, "/a".toList, [], []⟩

/-- The parse of `https://example.com/x`. -/
def urlExX : Url := ⟨"https".toList, "example.com".toList, "/x".toList, [], []⟩

/-- The parse of `https://x.com/report.pdf`. -/
def urlPdf : Url := ⟨"https".toList, "x.com".toList, "/report.pdf".toList, [], []⟩

/-- Example frontier state: two discovered links, one visited. -/
def stEx : CrawlState :=
  ⟨["https://example.com/a", "https://example.com/b"],
   ["https://example.com/a"], "https://example.com/a"⟩

/-- A glob pattern with no `*` matches exactly the equal string. -/
theorem globMatch_no_star (p : List Char) (h : '*' ∉ p) (s : List Char) :
    globMatch p s = decide (p = s) := by
  induction p generalizing s with
  | nil =>
    cases s <;> simp [globMatch]
  | cons c ps ih =>
    have hc : c ≠ '*' := fun hs => h (hs ▸ List.mem_cons_self c ps)
    have hps : '*' ∉ ps := fun hs => h (List.mem_cons_of_mem c hs)
    cases s with
    | nil => simp [globMatch, hc]
    | cons d ds =>
      simp only [globMatch]
      rw [if_neg hc]
      show ((c == d) && globMatch ps ds) = decide (c :: ps = d :: ds)
      rw [ih hps ds]
      by_cases hcd : c = d
      · subst hcd
        simp [List.cons.injEq]
      · simp [List.cons.injEq, hcd]

/-- Membership in a JS-set insertion. -/
theorem mem_insertSet {xs : List String} {x y : String} :
    y ∈ insertSet xs x ↔ y ∈ xs ∨ y = x := by
  unfold insertSet
  split
  · next hx =>
    constructor
    · exact fun h => Or.inl h
    · rintro (h | rfl)
      · exact h
      · exact hx
  · simp

theorem mem_insertSet_self (xs : List String) (x : String) : x ∈ insertSet xs x :=
  mem_insertSet.mpr (Or.inr rfl)

theorem mem_insertSet_of_mem {xs : List String} {y : String} (x : String)
    (h : y ∈ xs) : y ∈ insertSet xs x :=
  mem_insertSet.mpr (Or.inl h)

/-- Unfolding of the acceptance test: an accepted link is the
fragment-cleared resolution of the href, in scope and unfiltered. -/
theorem acceptAnchor_some {cfg : Config} {href l : String}
    (h : acceptAnchor cfg href = some l) :
    ∃ u : Url, resolve href cfg.seed = some u ∧ l = (clearFrag u).href ∧
      isInScopeL (clearFrag u).host cfg.domain = true ∧
      shouldSkipUrl (clearFrag u).href = some false := by
  unfold acceptAnchor at h
  cases hres : resolve href cfg.seed with
  | none => rw [hres] at h; exact absurd h (by simp)
  | some u =>
    rw [hres] at h
    simp only at h
    refine ⟨u, rfl, ?_⟩
    by_cases hin : isInScopeL (clearFrag u).host cfg.domain = true
    · rw [if_pos hin] at h
      cases hsk : shouldSkipUrl (clearFrag u).href with
      | none => rw [hsk] at h; exact absurd h (by simp)
      | some b =>
        cases b with
        | false =>
          rw [hsk] at h
          simp only [Option.some.injEq] at h
          exact ⟨h.symm, hin, rfl⟩
        | true => rw [hsk] at h; exact absurd h (by simp)
    · rw [if_neg hin] at h
      exact absurd h (by simp)

/-- An accepted link satisfies the canonical-link predicate. -/
theorem acceptAnchor_acceptedLink {cfg : Config} {href l : String}
    (h : acceptAnchor cfg href = some l) : acceptedLink cfg l := by
  obtain ⟨u, _, rfl, hin, hsk⟩ := acceptAnchor_some h
  exact ⟨clearFrag u, rfl, rfl, hin, hsk⟩

/-- `processAnchor` only grows the link set. -/
theorem mem_processAnchor_of_mem {cfg : Config} {links : List String}
    {l : String} (href : String) (h : l ∈ links) :
    l ∈ processAnchor cfg links href := by
  unfold processAnchor
  cases acceptAnchor cfg href with
  | none => exact h
  | some a => exact mem_insertSet_of_mem a h

/-- Any member of `processAnchor`'s result was present before or is the
accepted link of the processed href. -/
theorem mem_processAnchor {cfg : Config} {links : List String}
    {l href : String} (h : l ∈ processAnchor cfg links href) :
    l ∈ links ∨ acceptAnchor cfg href = some l := by
  unfold processAnchor at h
  cases ha : acceptAnchor cfg href with
  | none => rw [ha] at h; exact Or.inl h
  | some a =>
    rw [ha] at h
    rcases mem_insertSet.mp h with h' | rfl
    · exact Or.inl h'
    · exact Or.inr rfl

/-- `extractLinks` only grows the link set. -/
theorem mem_extractLinks_of_mem {cfg : Config} {links : List String}
    {l : String} (anchors : List (Option String)) (h : l ∈ links) :
    l ∈ extractLinks cfg links anchors := by
  induction anchors generalizing links with
  | nil => exact h
  | cons a rest ih =>
    cases a with
    | none => exact ih h
    | some href =>
      unfold extractLinks
      split
      · exact ih h
      · exact ih (mem_processAnchor_of_mem href h)

/-- Any member of `extractLinks`'s result was present before or is the
accepted link of one of the page's hrefs. -/
theorem mem_extractLinks {cfg : Config} {links : List String} {l : String}
    {anchors : List (Option String)} (h : l ∈ extractLinks cfg links anchors) :
    l ∈ links ∨ ∃ href, acceptAnchor cfg href = some l := by
  induction anchors generalizing links with
  | nil => exact Or.inl h
  | cons a rest ih =>
    cases a with
    | none => exact ih h
    | some href =>
      unfold extractLinks at h
      split at h
      · exact ih h
      · rcases ih h with h' | h'
        · rcases mem_processAnchor h' with h'' | h''
          · exact Or.inl h''
          · exact Or.inr ⟨href, h''⟩
        · exact Or.inr h'

/-- The two set components of `runVisit`. -/
theorem runVisit_visits (cfg : Config) (st : CrawlState) (rep : PageReport) :
    (runVisit cfg st rep).visits = insertSet st.visits st.nextUrl := rfl

theorem runVisit_links_mono {cfg : Config} {st : CrawlState} {l : String}
    (rep : PageReport) (h : l ∈ st.links) : l ∈ (runVisit cfg st rep).links :=
  mem_extractLinks_of_mem rep.anchors h

/-- Frontier membership is exactly the set difference. -/
theorem mem_unvisited {st : CrawlState} {l : String} :
    l ∈ unvisited st ↔ l ∈ st.links ∧ l ∉ st.visits := by
  unfold unvisited
  simp

/-- `List.getD` at an in-bounds index is a member. -/
theorem getD_mem_of_lt {α : Type} {xs : List α} {i : ℕ} (d : α)
    (h : i < xs.length) : xs.getD i d ∈ xs := by
  induction xs generalizing i with
  | nil => simp at h
  | cons a rest ih =>
    cases i with
    | zero => simp [List.getD]
    | succ j =>
      have := ih (i := j) (by simpa using Nat.lt_of_succ_lt_succ h)
      simpa [List.getD] using Or.inr this

/-- The executable `pickIndex` agrees with the mathematical floor. -/
theorem pickIndex_eq_floor (r : ℚ) (n : ℕ) :
    pickIndex r n = (Int.floor (r * (n : ℚ))).toNat := by
  unfold pickIndex
  rw [Rat.floor_def', ← Rat.floor_def]

/-- For a draw in `[0, 1)` the picked index is in bounds. -/
theorem pickIndex_lt {r : ℚ} {n : ℕ} (h0 : 0 ≤ r) (h1 : r < 1) (hn : 0 < n) :
    pickIndex r n < n := by
  rw [pickIndex_eq_floor]
  have hn' : (0 : ℚ) < n := by exact_mod_cast hn
  have hfl : Int.floor (r * (n : ℚ)) < (n : ℤ) := by
    rw [Int.floor_lt]
    push_cast
    calc r * n < 1 * n := by exact mul_lt_mul_of_pos_right h1 hn'
      _ = n := one_mul _
  have hge : (0 : ℤ) ≤ Int.floor (r * (n : ℚ)) :=
    Int.floor_nonneg.mpr (mul_nonneg h0 hn'.le)
  omega

/-- Characterization of the picked index: index `j` is chosen exactly
when the draw falls in the interval `[j/n, (j+1)/n)`; the intervals
for the `n` indices partition `[0, 1)` into pieces of equal length
`1/n`, which is the uniform-choice property of
`Math.floor(Math.random() * n)`. -/
theorem pickIndex_eq_iff {r : ℚ} {n : ℕ} (j : ℕ) (h0 : 0 ≤ r) (hn : 0 < n) :
    (pickIndex r n = j ↔ ((j : ℚ) / n ≤ r ∧ r < ((j : ℚ) + 1) / n)) := by
  rw [pickIndex_eq_floor]
  have hn' : (0 : ℚ) < n := by exact_mod_cast hn
  have hge : (0 : ℤ) ≤ Int.floor (r * (n : ℚ)) :=
    Int.floor_nonneg.mpr (mul_nonneg h0 hn'.le)
  have key : Int.floor (r * (n : ℚ)) = (j : ℤ) ↔
      ((j : ℚ) ≤ r * n ∧ r * n < (j : ℚ) + 1) := by
    rw [Int.floor_eq_iff]
    push_cast
    exact Iff.rfl
  constructor
  · intro h
    have hj : Int.floor (r * (n : ℚ)) = (j : ℤ) := by omega
    obtain ⟨ha, hb⟩ := key.mp hj
    exact ⟨(div_le_iff₀ hn').mpr (by linarith), (lt_div_iff₀ hn').mpr (by linarith)⟩
  · rintro ⟨ha, hb⟩
    rw [div_le_iff₀ hn'] at ha
    rw [lt_div_iff₀ hn'] at hb
    have hj : Int.floor (r * (n : ℚ)) = (j : ℤ) := key.mpr ⟨by linarith, by linarith⟩
    omega

/-- Exhaustion signal of the frontier selection. -/
theorem nextUnvisited_none_iff (st : CrawlState) (r : ℚ) :
    nextUnvisited st r = none ↔ unvisited st = [] := by
  unfold nextUnvisited
  split <;> simp_all

/-- A selected next target is an unvisited discovered link. -/
theorem nextUnvisited_mem {st : CrawlState} {r : ℚ} {l : String}
    (h0 : 0 ≤ r) (h1 : r < 1) (h : nextUnvisited st r = some l) :
    l ∈ unvisited st := by
  unfold nextUnvisited at h
  split at h
  · exact absurd h (by simp)
  · next hne =>
    simp only [Option.some.injEq] at h
    have hn : 0 < (unvisited st).length :=
      List.length_pos.mpr hne
    exact h ▸ getD_mem_of_lt "" (pickIndex_lt h0 h1 hn)

/-- Unfolding of a loop iteration that stops by exhaustion. -/
theorem crawlGo_succ_none (cfg : Config) (input : ℕ → PageReport)
    (rand : ℕ → ℚ) (n i : ℕ) (st : CrawlState)
    (h : nextUnvisited (runVisit cfg st (input i)) (rand i) = none) :
    crawlGo cfg input rand (n + 1) i st = ([runVisit cfg st (input i)], true) := by
  simp only [crawlGo, h]

/-- Unfolding of a loop iteration that selects a next target. -/
theorem crawlGo_succ_some (cfg : Config) (input : ℕ → PageReport)
    (rand : ℕ → ℚ) (n i : ℕ) (st : CrawlState) (next : String)
    (h : nextUnvisited (runVisit cfg st (input i)) (rand i) = some next) :
    crawlGo cfg input rand (n + 1) i st =
      (runVisit cfg st (input i) ::
        (crawlGo cfg input rand n (i + 1)
          (setNext (runVisit cfg st (input i)) next)).1,
       (crawlGo cfg input rand n (i + 1)
          (setNext (runVisit cfg st (input i)) next)).2) := by
  simp only [crawlGo, h]

/-- The loop executes at most `fuel` iterations. -/
theorem crawlGo_length_le (cfg : Config) (input : ℕ → PageReport)
    (rand : ℕ → ℚ) : ∀ (fuel i : ℕ) (st : CrawlState),
    (crawlGo cfg input rand fuel i st).1.length ≤ fuel := by
  intro fuel
  induction fuel with
  | zero => intro i st; simp [crawlGo]
  | succ n ih =>
    intro i st
    cases hnx : nextUnvisited (runVisit cfg st (input i)) (rand i) with
    | none => rw [crawlGo_succ_none cfg input rand n i st hnx]; simp
    | some next =>
      rw [crawlGo_succ_some cfg input rand n i st next hnx]
      simpa using Nat.succ_le_succ (ih (i + 1) _)

/-- If the loop did not stop by exhaustion, it used the whole budget. -/
theorem crawlGo_not_exhausted (cfg : Config) (input : ℕ → PageReport)
    (rand : ℕ → ℚ) : ∀ (fuel i : ℕ) (st : CrawlState),
    (crawlGo cfg input rand fuel i st).2 = false →
    (crawlGo cfg input rand fuel i st).1.length = fuel := by
  intro fuel
  induction fuel with
  | zero => intro i st _; simp [crawlGo]
  | succ n ih =>
    intro i st h
    cases hnx : nextUnvisited (runVisit cfg st (input i)) (rand i) with
    | none => rw [crawlGo_succ_none cfg input rand n i st hnx] at h; simp at h
    | some next =>
      rw [crawlGo_succ_some cfg input rand n i st next hnx] at h ⊢
      simpa using ih (i + 1) _ h

/-- If the loop stopped by exhaustion, the trace is nonempty and the
frontier is empty at the end of its last iteration. -/
theorem crawlGo_exhausted_last (cfg : Config) (input : ℕ → PageReport)
    (rand : ℕ → ℚ) : ∀ (fuel i : ℕ) (st : CrawlState),
    (crawlGo cfg input rand fuel i st).2 = true →
    (crawlGo cfg input rand fuel i st).1 ≠ [] ∧
      unvisited ((crawlGo cfg input rand fuel i st).1.getLastD (initState cfg.seed)) = [] := by
  intro fuel
  induction fuel with
  | zero => intro i st h; simp [crawlGo] at h
  | succ n ih =>
    intro i st h
    cases hnx : nextUnvisited (runVisit cfg st (input i)) (rand i) with
    | none =>
      rw [crawlGo_succ_none cfg input rand n i st hnx]
      refine ⟨by simp, ?_⟩
      simp only [List.getLastD_cons, List.getLastD_nil]
      exact (nextUnvisited_none_iff _ _).mp hnx
    | some next =>
      rw [crawlGo_succ_some cfg input rand n i st next hnx] at h ⊢
      simp only at h
      obtain ⟨hne, hlast⟩ := ih (i + 1) _ h
      refine ⟨by simp, ?_⟩
      simp only [List.getLastD_cons]
      cases htr : (crawlGo cfg input rand n (i + 1)
          (setNext (runVisit cfg st (input i)) next)).1 with
      | nil => exact absurd htr hne
      | cons s rest =>
        rw [htr] at hlast
        simpa [List.getLastD_cons] using hlast

/-- Every state the loop records keeps
`visits ⊆ links ∪ {seed}`, provided the random draws are in `[0,1)`
(as `Math.random()` guarantees). -/
theorem crawlGo_visits_inv (cfg : Config) (input : ℕ → PageReport)
    (rand : ℕ → ℚ) (hr : ∀ k : ℕ, 0 ≤ rand k ∧ rand k < 1) :
    ∀ (fuel i : ℕ) (st : CrawlState),
    (∀ v ∈ st.visits, v ∈ st.links ∨ v = cfg.seed) →
    (st.nextUrl ∈ st.links ∨ st.nextUrl = cfg.seed) →
    ∀ s ∈ (crawlGo cfg input rand fuel i st).1,
      ∀ v ∈ s.visits, v ∈ s.links ∨ v = cfg.seed := by
  intro fuel
  induction fuel with
  | zero => intro i st _ _ s hs; simp [crawlGo] at hs
  | succ n ih =>
    intro i st hv hn s hs
    have hv1 : ∀ v ∈ (runVisit cfg st (input i)).visits,
        v ∈ (runVisit cfg st (input i)).links ∨ v = cfg.seed := by
      intro v hvm
      rw [runVisit_visits] at hvm
      rcases mem_insertSet.mp hvm with h' | rfl
      · rcases hv v h' with h'' | h''
        · exact Or.inl (runVisit_links_mono _ h'')
        · exact Or.inr h''
      · rcases hn with h'' | h''
        · exact Or.inl (runVisit_links_mono _ h'')
        · exact Or.inr h''
    cases hnx : nextUnvisited (runVisit cfg st (input i)) (rand i) with
    | none =>
      rw [crawlGo_succ_none cfg input rand n i st hnx] at hs
      simp only [List.mem_singleton] at hs
      exact hs ▸ hv1
    | some next =>
      rw [crawlGo_succ_some cfg input rand n i st next hnx] at hs
      simp only [List.mem_cons] at hs
      rcases hs with rfl | hs
      · exact hv1
      · have hnext : next ∈ (runVisit cfg st (input i)).links :=
          (mem_unvisited.mp (nextUnvisited_mem (hr i).1 (hr i).2 hnx)).1
        exact ih (i + 1) (setNext (runVisit cfg st (input i)) next)
          hv1 (Or.inl hnext) s hs

/-- Every link the loop ever discovers satisfies the canonical
accepted-link predicate. -/
theorem crawlGo_links_inv (cfg : Config) (input : ℕ → PageReport)
    (rand : ℕ → ℚ) : ∀ (fuel i : ℕ) (st : CrawlState),
    (∀ l ∈ st.links, acceptedLink cfg l) →
    ∀ s ∈ (crawlGo cfg input rand fuel i st).1,
      ∀ l ∈ s.links, acceptedLink cfg l := by
  intro fuel
  induction fuel with
  | zero => intro i st _ s hs; simp [crawlGo] at hs
  | succ n ih =>
    intro i st hl s hs
    have hl1 : ∀ l ∈ (runVisit cfg st (input i)).links, acceptedLink cfg l := by
      intro l hlm
      rcases mem_extractLinks hlm with h' | ⟨href, h'⟩
      · exact hl l h'
      · exact acceptAnchor_acceptedLink h'
    cases hnx : nextUnvisited (runVisit cfg st (input i)) (rand i) with
    | none =>
      rw [crawlGo_succ_none cfg input rand n i st hnx] at hs
      simp only [List.mem_singleton] at hs
      exact hs ▸ hl1
    | some next =>
      rw [crawlGo_succ_some cfg input rand n i st next hnx] at hs
      simp only [List.mem_cons] at hs
      rcases hs with rfl | hs
      · exact hl1
      · exact ih (i + 1) (setNext (runVisit cfg st (input i)) next)
          hl1 s hs

/-- The first recorded state extends the entry state. -/
theorem crawlGo_head_mono (cfg : Config) (input : ℕ → PageReport)
    (rand : ℕ → ℚ) : ∀ (fuel i : ℕ) (st s : CrawlState)
    (rest : List CrawlState),
    (crawlGo cfg input rand fuel i st).1 = s :: rest →
    (∀ x ∈ st.links, x ∈ s.links) ∧ (∀ x ∈ st.visits, x ∈ s.visits) := by
  intro fuel
  cases fuel with
  | zero => intro i st s rest h; simp [crawlGo] at h
  | succ n =>
    intro i st s rest h
    have hhead : s = runVisit cfg st (input i) := by
      cases hnx : nextUnvisited (runVisit cfg st (input i)) (rand i) with
      | none =>
        rw [crawlGo_succ_none cfg input rand n i st hnx] at h
        exact (List.cons.injEq _ _ _ _ ▸ h).1.symm
      | some next =>
        rw [crawlGo_succ_some cfg input rand n i st next hnx] at h
        exact (List.cons.injEq _ _ _ _ ▸ h).1.symm
    subst hhead
    refine ⟨fun x hx => runVisit_links_mono _ hx, fun x hx => ?_⟩
    rw [runVisit_visits]
    exact mem_insertSet_of_mem _ hx

/-- Consecutive recorded states grow monotonically: `links` and
`visits` only ever gain elements. -/
theorem crawlGo_consec_mono (cfg : Config) (input : ℕ → PageReport)
    (rand : ℕ → ℚ) : ∀ (fuel i : ℕ) (st : CrawlState) (k : ℕ),
    k + 1 < (crawlGo cfg input rand fuel i st).1.length →
    (∀ x ∈ ((crawlGo cfg input rand fuel i st).1.getD k (initState cfg.seed)).links,
        x ∈ ((crawlGo cfg input rand fuel i st).1.getD (k + 1) (initState cfg.seed)).links) ∧
    (∀ x ∈ ((crawlGo cfg input rand fuel i st).1.getD k (initState cfg.seed)).visits,
        x ∈ ((crawlGo cfg input rand fuel i st).1.getD (k + 1) (initState cfg.seed)).visits) := by
  intro fuel
  induction fuel with
  | zero => intro i st k h; simp [crawlGo] at h
  | succ n ih =>
    intro i st k h
    cases hnx : nextUnvisited (runVisit cfg st (input i)) (rand i) with
    | none =>
      rw [crawlGo_succ_none cfg input rand n i st hnx] at h
      simp at h
    | some next =>
      rw [crawlGo_succ_some cfg input rand n i st next hnx] at h ⊢
      simp only [List.length_cons] at h
      cases k with
      | zero =>
        have hlen : 0 < (crawlGo cfg input rand n (i + 1)
            (setNext (runVisit cfg st (input i)) next)).1.length := by omega
        cases htr : (crawlGo cfg input rand n (i + 1)
            (setNext (runVisit cfg st (input i)) next)).1 with
        | nil => rw [htr] at hlen; simp at hlen
        | cons s rest =>
          have hm := crawlGo_head_mono cfg input rand n (i + 1) _ s rest htr
          simp only [htr, List.getD_cons_zero, List.getD_cons_succ]
          constructor
          · intro x hx; exact hm.1 x hx
          · intro x hx
            refine hm.2 x ?_
            exact hx
      | succ k' =>
        have hk := ih (i + 1) (setNext (runVisit cfg st (input i)) next) k'
          (by omega)
        simpa [List.getD_cons_succ] using hk

/-- `Map.set` then `Map.get` of the same key yields the new value. -/
theorem lookup_mapSet_self (m : List (String × ℕ)) (k : String) (v : ℕ) :
    lookupStatus (mapSet m k v) k = some v := by
  induction m with
  | nil => simp [mapSet, lookupStatus, List.find?]
  | cons p rest ih =>
    by_cases hp : p.1 = k
    · simp [mapSet, hp, lookupStatus, List.find?]
    · simp only [mapSet, if_neg hp]
      simp only [lookupStatus, List.find?] at ih ⊢
      rw [show (p.1 == k) = false by simpa using hp]
      exact ih

/-- `Map.set` introduces at most the written pair. -/
theorem mem_mapSet {m : List (String × ℕ)} {k : String} {v : ℕ}
    {q : String × ℕ} (h : q ∈ mapSet m k v) : q = (k, v) ∨ q ∈ m := by
  induction m with
  | nil => simpa [mapSet] using h
  | cons p rest ih =>
    by_cases hp : p.1 = k
    · rw [mapSet, if_pos hp] at h
      rcases List.mem_cons.mp h with rfl | h'
      · exact Or.inl rfl
      · exact Or.inr (List.mem_cons_of_mem p h')
    · rw [mapSet, if_neg hp] at h
      rcases List.mem_cons.mp h with rfl | h'
      · exact Or.inr (List.mem_cons_self _ _)
      · rcases ih h' with h'' | h''
        · exact Or.inl h''
        · exact Or.inr (List.mem_cons_of_mem p h'')

/-- The response handler preserves the ledger scope invariant. -/
theorem onResponse_requests_inv (domain : List String) (st : LedgerState)
    (url : String) (status : ℕ)
    (h : ∀ q ∈ st.requests, ∃ u : Url, parseAbsolute q.1 = some u ∧
      String.mk u.host ∈ domain) :
    ∀ q ∈ (onResponse domain st url status).requests,
      ∃ u : Url, parseAbsolute q.1 = some u ∧ String.mk u.host ∈ domain := by
  intro q hq
  unfold onResponse at hq
  cases hp : parseAbsolute url with
  | none => rw [hp] at hq; exact h q hq
  | some u =>
    rw [hp] at hq
    simp only at hq
    by_cases hd : String.mk u.host ∈ domain
    · rw [if_pos hd] at hq
      rcases mem_mapSet hq with rfl | hq'
      · exact ⟨u, hp, hd⟩
      · exact h q hq'
    · rw [if_neg hd] at hq
      exact h q hq

/-- Scope invariant for a whole observed-response sequence. -/
theorem runResponses_inv (domain : List String) (events : List (String × ℕ)) :
    ∀ q ∈ (runResponses domain events).requests,
      ∃ u : Url, parseAbsolute q.1 = some u ∧ String.mk u.host ∈ domain := by
  have main : ∀ (evs : List (String × ℕ)) (st : LedgerState),
      (∀ q ∈ st.requests, ∃ u : Url, parseAbsolute q.1 = some u ∧
        String.mk u.host ∈ domain) →
      ∀ q ∈ (evs.foldl (fun s e => onResponse domain s e.1 e.2) st).requests,
        ∃ u : Url, parseAbsolute q.1 = some u ∧ String.mk u.host ∈ domain := by
    intro evs
    induction evs with
    | nil => intro st h q hq; exact h q hq
    | cons e rest ih =>
      intro st h q hq
      exact ih _ (onResponse_requests_inv domain st e.1 e.2 h) q hq
  intro q hq
  exact main events ⟨[], []⟩ (by simp) q hq

/-- `List.getD` at an in-bounds index is `List.get`. -/
theorem getD_eq_get {α : Type} (xs : List α) (i : ℕ) (d : α)
    (h : i < xs.length) : xs.getD i d = xs.get ⟨i, h⟩ := by
  induction xs generalizing i with
  | nil => simp at h
  | cons a rest ih =>
    cases i with
    | zero => simp [List.getD]
    | succ j => simpa [List.getD] using ih j (by simpa using Nat.lt_of_succ_lt_succ h)

/-- Strings with equal character lists are equal. -/
theorem toList_inj {a b : String} (h : a.toList = b.toList) : a = b := by
  cases a
  cases b
  exact congrArg String.mk h

/-- An empty frontier at the end of a recorded iteration stops the
loop there: that iteration is the last one of the trace and the loop
reports exhaustion. -/
theorem crawlGo_stops_on_empty (cfg : Config) (input : ℕ → PageReport)
    (rand : ℕ → ℚ) : ∀ (fuel i : ℕ) (st : CrawlState) (k : ℕ),
    k < (crawlGo cfg input rand fuel i st).1.length →
    unvisited ((crawlGo cfg input rand fuel i st).1.getD k (initState cfg.seed)) = [] →
    (crawlGo cfg input rand fuel i st).1.length = k + 1 ∧
      (crawlGo cfg input rand fuel i st).2 = true := by
  intro fuel
  induction fuel with
  | zero => intro i st k hk _; simp [crawlGo] at hk
  | succ n ih =>
    intro i st k hk hemp
    cases hnx : nextUnvisited (runVisit cfg st (input i)) (rand i) with
    | none =>
      rw [crawlGo_succ_none cfg input rand n i st hnx] at hk ⊢
      simp only [List.length_cons, List.length_nil] at hk
      refine ⟨?_, rfl⟩
      simp only [List.length_cons, List.length_nil]
      omega
    | some next =>
      rw [crawlGo_succ_some cfg input rand n i st next hnx] at hk hemp ⊢
      cases k with
      | zero =>
        rw [List.getD_cons_zero] at hemp
        have hnone : nextUnvisited (runVisit cfg st (input i)) (rand i) = none :=
          (nextUnvisited_none_iff _ _).mpr hemp
        rw [hnx] at hnone
        exact absurd hnone (by simp)
      | succ k' =>
        simp only [List.length_cons] at hk
        rw [List.getD_cons_succ] at hemp
        obtain ⟨h1, h2⟩ := ih (i + 1) (setNext (runVisit cfg st (input i)) next)
          k' (by omega) hemp
        constructor
        · simp only [List.length_cons]
          omega
        · exact h2

/-- The loop's behaviour depends on the driver reports only through
their anchor lists: the navigation-outcome flag is never consulted. -/
theorem crawlGo_anchors_only (cfg : Config) (input input2 : ℕ → PageReport)
    (rand : ℕ → ℚ) (hanch : ∀ k : ℕ, (input2 k).anchors = (input k).anchors) :
    ∀ (fuel i : ℕ) (st : CrawlState),
    crawlGo cfg input rand fuel i st = crawlGo cfg input2 rand fuel i st := by
  intro fuel
  induction fuel with
  | zero => intro i st; rfl
  | succ n ih =>
    intro i st
    have hrv : runVisit cfg st (input2 i) = runVisit cfg st (input i) := by
      unfold runVisit
      rw [hanch i]
    cases hnx : nextUnvisited (runVisit cfg st (input i)) (rand i) with
    | none =>
      rw [crawlGo_succ_none cfg input rand n i st hnx,
          crawlGo_succ_none cfg input2 rand n i st (by rw [hrv]; exact hnx), hrv]
    | some next =>
      rw [crawlGo_succ_some cfg input rand n i st next hnx,
          crawlGo_succ_some cfg input2 rand n i st next (by rw [hrv]; exact hnx),
          hrv, ih (i + 1) (setNext (runVisit cfg st (input i)) next)]

/-- C1: for every anchor href processed by the crawl loop, acceptance
behaves as the composition resolve-against-base, clear fragment, then
add the serialized URL to the discovered set iff the hostname matches a
scope pattern and the extension filter does not skip it; a failing
resolution contributes nothing. -/
theorem c1_accept_composition (cfg : Config) (links : List String)
    (href0 : String) (h0 : resolve href0 cfg.seed = none)
    (href : String) (u : Url) (h : resolve href cfg.seed = some u)
    (l : String) :
    processAnchor cfg links href0 = links ∧
    (l ∈ processAnchor cfg links href ↔
      (l ∈ links ∨
        (l = (clearFrag u).href ∧
         isInScopeL (clearFrag u).host cfg.domain = true ∧
         shouldSkipUrl (clearFrag u).href = some false))) := by
  constructor
  · simp [processAnchor, acceptAnchor, h0]
  · by_cases hin : isInScopeL (clearFrag u).host cfg.domain = true
    · cases hsk : shouldSkipUrl (clearFrag u).href with
      | none =>
        have hacc : acceptAnchor cfg href = none := by
          unfold acceptAnchor
          rw [h]
          simp [hin, hsk]
        simp [processAnchor, hacc, hsk]
      | some b =>
        cases b with
        | false =>
          have hacc : acceptAnchor cfg href = some (clearFrag u).href := by
            unfold acceptAnchor
            rw [h]
            simp [hin, hsk]
          simp [processAnchor, hacc, mem_insertSet, hin, hsk]
        | true =>
          have hacc : acceptAnchor cfg href = none := by
            unfold acceptAnchor
            rw [h]
            simp [hin, hsk]
          simp [processAnchor, hacc, hsk]
    · have hacc : acceptAnchor cfg href = none := by
        unfold acceptAnchor
        rw [h]
        simp [hin]
      have hin' : isInScopeL (clearFrag u).host cfg.domain = false :=
        Bool.not_eq_true _ ▸ (by simpa using hin)
      simp [processAnchor, hacc, hin']

/-- C1 witness: the composition theorem applied to the seed
`https://example.com/`, the throwing href `http://` and the accepted
href `/a`. -/
theorem c1_accept_composition_witness :
    resolve "http://" cfgEx.seed = none ∧
    resolve "/a" cfgEx.seed = some urlExA ∧
    (processAnchor cfgEx [] "http://" = [] ∧
      ("https://example.com/a" ∈ processAnchor cfgEx [] "/a" ↔
        ("https://example.com/a" ∈ ([] : List String) ∨
          ("https://example.com/a" = (clearFrag urlExA).href ∧
           isInScopeL (clearFrag urlExA).host cfgEx.domain = true ∧
           shouldSkipUrl (clearFrag urlExA).href = some false)))) :=
  ⟨by decide, by decide,
    c1_accept_composition cfgEx [] "http://" (by decide) "/a" urlExA (by decide)
      "https://example.com/a"⟩

/-- C2 counterexample: with `maxPages = 1` and a seed page carrying no
anchors, the loop performs exactly `maxPages` navigations (not strictly
fewer), yet the frontier is empty at the end of that iteration — so
"strictly fewer navigations iff the difference is empty at the end of
some iteration" fails in the right-to-left direction. -/
theorem c2_budget_counterexample :
    (crawlTrace cfgEx inputEmpty randZero 1).length = 1 ∧
    (crawlRun cfgEx inputEmpty randZero 1).2 = true ∧
    unvisited ((crawlTrace cfgEx inputEmpty randZero 1).getLastD
      (initState cfgEx.seed)) = [] ∧
    ¬((crawlTrace cfgEx inputEmpty randZero 1).length < 1) := by
  decide

/-- C2 amended: the loop performs at most `maxPages` navigations;
strictly fewer implies it stopped by frontier exhaustion; if it never
exhausted it used the whole budget; whenever it stopped by exhaustion
the frontier is empty at the end of its last iteration; and whenever
the frontier is empty at the end of any recorded iteration the loop
stops there — that iteration is the last one and the run reports
exhaustion (though exhaustion on the final budgeted iteration still
costs the full `maxPages` navigations). -/
theorem c2_budget_amended (cfg : Config) (input : ℕ → PageReport)
    (rand : ℕ → ℚ) (maxPages : ℕ) :
    (crawlTrace cfg input rand maxPages).length ≤ maxPages ∧
    ((crawlTrace cfg input rand maxPages).length < maxPages →
      (crawlRun cfg input rand maxPages).2 = true) ∧
    ((crawlRun cfg input rand maxPages).2 = false →
      (crawlTrace cfg input rand maxPages).length = maxPages) ∧
    ((crawlRun cfg input rand maxPages).2 = true →
      crawlTrace cfg input rand maxPages ≠ [] ∧
      unvisited ((crawlTrace cfg input rand maxPages).getLastD
        (initState cfg.seed)) = []) ∧
    (∀ k : ℕ, k < (crawlTrace cfg input rand maxPages).length →
      unvisited ((crawlTrace cfg input rand maxPages).getD k
        (initState cfg.seed)) = [] →
      (crawlTrace cfg input rand maxPages).length = k + 1 ∧
        (crawlRun cfg input rand maxPages).2 = true) := by
  unfold crawlTrace crawlRun
  refine ⟨crawlGo_length_le cfg input rand maxPages 0 (initState cfg.seed),
    ?_, crawlGo_not_exhausted cfg input rand maxPages 0 (initState cfg.seed),
    crawlGo_exhausted_last cfg input rand maxPages 0 (initState cfg.seed),
    crawlGo_stops_on_empty cfg input rand maxPages 0 (initState cfg.seed)⟩
  intro hlt
  cases hex : (crawlGo cfg input rand maxPages 0 (initState cfg.seed)).2 with
  | true => rfl
  | false =>
    have := crawlGo_not_exhausted cfg input rand maxPages 0 (initState cfg.seed) hex
    omega

/-- C2 amended witness: the amended budget theorem at a concrete run. -/
theorem c2_budget_amended_witness :
    (crawlTrace cfgEx inputEmpty randZero 2).length ≤ 2 ∧
    ((crawlTrace cfgEx inputEmpty randZero 2).length < 2 →
      (crawlRun cfgEx inputEmpty randZero 2).2 = true) ∧
    ((crawlRun cfgEx inputEmpty randZero 2).2 = false →
      (crawlTrace cfgEx inputEmpty randZero 2).length = 2) ∧
    ((crawlRun cfgEx inputEmpty randZero 2).2 = true →
      crawlTrace cfgEx inputEmpty randZero 2 ≠ [] ∧
      unvisited ((crawlTrace cfgEx inputEmpty randZero 2).getLastD
        (initState cfgEx.seed)) = []) ∧
    (∀ k : ℕ, k < (crawlTrace cfgEx inputEmpty randZero 2).length →
      unvisited ((crawlTrace cfgEx inputEmpty randZero 2).getD k
        (initState cfgEx.seed)) = [] →
      (crawlTrace cfgEx inputEmpty randZero 2).length = k + 1 ∧
        (crawlRun cfgEx inputEmpty randZero 2).2 = true) :=
  c2_budget_amended cfgEx inputEmpty randZero 2

/-- C3: at every point of the run, `VisitSet ⊆ DiscoveredSet ∪ {seed}`,
and both sets grow monotonically between consecutive iterations. -/
theorem c3_frontier_invariants (cfg : Config) (input : ℕ → PageReport)
    (rand : ℕ → ℚ) (maxPages : ℕ)
    (hr : ∀ k : ℕ, 0 ≤ rand k ∧ rand k < 1) :
    (∀ s ∈ crawlTrace cfg input rand maxPages,
      ∀ v ∈ s.visits, v ∈ s.links ∨ v = cfg.seed) ∧
    (∀ k : ℕ, k + 1 < (crawlTrace cfg input rand maxPages).length →
      (∀ x ∈ ((crawlTrace cfg input rand maxPages).getD k
          (initState cfg.seed)).links,
        x ∈ ((crawlTrace cfg input rand maxPages).getD (k + 1)
          (initState cfg.seed)).links) ∧
      (∀ x ∈ ((crawlTrace cfg input rand maxPages).getD k
          (initState cfg.seed)).visits,
        x ∈ ((crawlTrace cfg input rand maxPages).getD (k + 1)
          (initState cfg.seed)).visits)) := by
  unfold crawlTrace crawlRun
  constructor
  · exact crawlGo_visits_inv cfg input rand hr maxPages 0 (initState cfg.seed)
      (by intro v hv; simp [initState] at hv) (Or.inr rfl)
  · exact crawlGo_consec_mono cfg input rand maxPages 0 (initState cfg.seed)

/-- C3 witness: the invariants at a concrete run with legal random
draws. -/
theorem c3_frontier_invariants_witness :
    (∀ k : ℕ, 0 ≤ randZero k ∧ randZero k < 1) ∧
    ((∀ s ∈ crawlTrace cfgEx inputEmpty randZero 1,
        ∀ v ∈ s.visits, v ∈ s.links ∨ v = cfgEx.seed) ∧
      (∀ k : ℕ, k + 1 < (crawlTrace cfgEx inputEmpty randZero 1).length →
        (∀ x ∈ ((crawlTrace cfgEx inputEmpty randZero 1).getD k
            (initState cfgEx.seed)).links,
          x ∈ ((crawlTrace cfgEx inputEmpty randZero 1).getD (k + 1)
            (initState cfgEx.seed)).links) ∧
        (∀ x ∈ ((crawlTrace cfgEx inputEmpty randZero 1).getD k
            (initState cfgEx.seed)).visits,
          x ∈ ((crawlTrace cfgEx inputEmpty randZero 1).getD (k + 1)
            (initState cfgEx.seed)).visits))) :=
  ⟨fun _ => ⟨le_refl 0, by norm_num [randZero]⟩,
    c3_frontier_invariants cfgEx inputEmpty randZero 1
      (fun _ => ⟨le_refl 0, by norm_num [randZero]⟩)⟩

/-- C4: the response handler adds the hostname to the domain set
regardless of scope, writes `url → status` into the ledger iff the
hostname is an element of the configured domain list (so the ledger
never holds a URL whose hostname is outside that list), and a repeat
observation of the same URL overwrites the previous status. -/
theorem c4_response_ledger (domain : List String) (st : LedgerState)
    (url : String) (status s' : ℕ) (u : Url)
    (h : parseAbsolute url = some u) (events : List (String × ℕ)) :
    (onResponse domain st url status).domains =
      insertSet st.domains (String.mk u.host) ∧
    (String.mk u.host ∈ domain →
      lookupStatus (onResponse domain st url status).requests url = some status) ∧
    (String.mk u.host ∉ domain →
      (onResponse domain st url status).requests = st.requests) ∧
    (String.mk u.host ∈ domain →
      lookupStatus (onResponse domain (onResponse domain st url s') url
        status).requests url = some status) ∧
    (∀ q ∈ (runResponses domain events).requests,
      ∃ v : Url, parseAbsolute q.1 = some v ∧ String.mk v.host ∈ domain) := by
  refine ⟨by simp [onResponse, h], ?_, ?_, ?_, runResponses_inv domain events⟩
  · intro hd
    simp [onResponse, h, hd, lookup_mapSet_self]
  · intro hd
    simp [onResponse, h, hd]
  · intro hd
    simp [onResponse, h, hd, lookup_mapSet_self]

/-- C4 witness: the ledger theorem at a concrete in-scope response and
a concrete out-of-scope event sequence. -/
theorem c4_response_ledger_witness :
    parseAbsolute "https://example.com/x" = some urlExX ∧
    ((onResponse ["example.com"] ⟨[], []⟩ "https://example.com/x" 404).domains =
        insertSet ([] : List String) (String.mk urlExX.host) ∧
      (String.mk urlExX.host ∈ ["example.com"] →
        lookupStatus (onResponse ["example.com"] ⟨[], []⟩ "https://example.com/x"
          404).requests "https://example.com/x" = some 404) ∧
      (String.mk urlExX.host ∉ ["example.com"] →
        (onResponse ["example.com"] ⟨[], []⟩ "https://example.com/x"
          404).requests = ([] : List (String × ℕ))) ∧
      (String.mk urlExX.host ∈ ["example.com"] →
        lookupStatus (onResponse ["example.com"] (onResponse ["example.com"]
          ⟨[], []⟩ "https://example.com/x" 200) "https://example.com/x"
          404).requests "https://example.com/x" = some 404) ∧
      (∀ q ∈ (runResponses ["example.com"]
          [("https://cdn.other.com/a.js", 200)]).requests,
        ∃ v : Url, parseAbsolute q.1 = some v ∧
          String.mk v.host ∈ ["example.com"])) :=
  ⟨by decide,
    c4_response_ledger ["example.com"] ⟨[], []⟩ "https://example.com/x" 404 200
      urlExX (by decide) [("https://cdn.other.com/a.js", 200)]⟩

/-- C5: a starless pattern matches exactly the equal hostname, and the
glob examples of the specification hold, including a multi-level
subdomain wildcard match. -/
theorem c5_scope_matching (hostname pattern : String)
    (h : '*' ∉ pattern.toList) :
    (isInScope hostname [pattern] = true ↔ hostname = pattern) ∧
    isInScope "a.example.com" ["*.example.com"] = true ∧
    isInScope "example.com" ["*.example.com"] = false ∧
    isInScope "example.com" ["example.com"] = true ∧
    isInScope "a.b.example.com" ["*.example.com"] = true := by
  refine ⟨⟨?_, ?_⟩, by decide, by decide, by decide, by decide⟩
  · intro hm
    have hg : globMatch pattern.toList hostname.toList = true := by
      simpa [isInScope, isInScopeL] using hm
    rw [globMatch_no_star pattern.toList h hostname.toList] at hg
    exact (toList_inj (of_decide_eq_true hg)).symm
  · intro he
    subst he
    unfold isInScope isInScopeL
    simp only [List.any_cons, List.any_nil, Bool.or_false]
    rw [globMatch_no_star hostname.toList h hostname.toList]
    simp

/-- C5 witness: the exact-match equivalence applied to a concrete
starless pattern. -/
theorem c5_scope_matching_witness :
    ('*' ∉ "x.com".toList) ∧
    ((isInScope "x.com" ["x.com"] = true ↔ "x.com" = "x.com") ∧
      isInScope "a.example.com" ["*.example.com"] = true ∧
      isInScope "example.com" ["*.example.com"] = false ∧
      isInScope "example.com" ["example.com"] = true ∧
      isInScope "a.b.example.com" ["*.example.com"] = true) :=
  ⟨by decide, c5_scope_matching "x.com" "x.com" (by decide)⟩

/-- C6: for a URL that parses, the skip test is true exactly when the
lowercased pathname ends with a denylisted extension (query and
fragment excluded by construction of the pathname), and the three
specification examples hold. -/
theorem c6_extension_filter (url : String) (u : Url)
    (h : parseAbsolute url = some u) :
    (shouldSkipUrl url = some true ↔
      ∃ ext ∈ SKIP_EXTENSIONS,
        List.isSuffixOf ext.toList (u.path.map lowerChar) = true) ∧
    shouldSkipUrl "https://x.com/report.pdf" = some true ∧
    shouldSkipUrl "https://x.com/report.pdf?x=1" = some true ∧
    shouldSkipUrl "https://x.com/page" = some false := by
  refine ⟨?_, by decide, by decide, by decide⟩
  simp [shouldSkipUrl, h, skipPath, List.any_eq_true]

/-- C6 witness: the extension-filter characterization at
`https://x.com/report.pdf`. -/
theorem c6_extension_filter_witness :
    parseAbsolute "https://x.com/report.pdf" = some urlPdf ∧
    ((shouldSkipUrl "https://x.com/report.pdf" = some true ↔
      ∃ ext ∈ SKIP_EXTENSIONS,
        List.isSuffixOf ext.toList (urlPdf.path.map lowerChar) = true) ∧
      shouldSkipUrl "https://x.com/report.pdf" = some true ∧
      shouldSkipUrl "https://x.com/report.pdf?x=1" = some true ∧
      shouldSkipUrl "https://x.com/page" = some false) :=
  ⟨by decide, c6_extension_filter "https://x.com/report.pdf" urlPdf (by decide)⟩

/-- C7 counterexample: an iteration whose navigation failed
(`navOk = false`) still runs anchor extraction on whatever the driver
reports, so it contributes a link to the discovered set — the claim's
"contributes zero extracted links" does not hold. -/
theorem c7_navigation_failure_counterexample :
    (inputFailA 0).navOk = false ∧
    (runVisit cfgEx (initState cfgEx.seed) (inputFailA 0)).links =
      ["https://example.com/a"] := by
  decide

/-- C7 amended: a navigation failure does not abort the crawl — the
page still counts as visited, the whole iteration (and loop) behaves
exactly as if navigation had succeeded, and the iteration contributes
zero links exactly when the driver reports no anchors; extraction is
not suppressed on failure. -/
theorem c7_navigation_failure_amended (cfg : Config) (st : CrawlState)
    (rep : PageReport) (h : rep.navOk = false)
    (input input2 : ℕ → PageReport)
    (hanch : ∀ k : ℕ, (input2 k).anchors = (input k).anchors)
    (rand : ℕ → ℚ) (fuel i : ℕ) (st' : CrawlState) :
    (runVisit cfg st rep).visits = insertSet st.visits st.nextUrl ∧
    runVisit cfg st rep = runVisit cfg st ⟨true, rep.anchors⟩ ∧
    (rep.anchors = [] → (runVisit cfg st rep).links = st.links) ∧
    crawlGo cfg input rand fuel i st' = crawlGo cfg input2 rand fuel i st' :=
  ⟨rfl, rfl, fun ha => by simp [runVisit, ha, extractLinks],
    crawlGo_anchors_only cfg input input2 rand hanch fuel i st'⟩

/-- C7 amended witness: the amended theorem at a failing report with a
leftover anchor. -/
theorem c7_navigation_failure_amended_witness :
    ((⟨false, [some "/a"]⟩ : PageReport).navOk = false) ∧
    (∀ k : ℕ, ((fun _ => (⟨true, [some "/a"]⟩ : PageReport)) k).anchors =
      (inputFailA k).anchors) ∧
    ((runVisit cfgEx (initState cfgEx.seed)
        (⟨false, [some "/a"]⟩ : PageReport)).visits =
      insertSet (initState cfgEx.seed).visits (initState cfgEx.seed).nextUrl ∧
    runVisit cfgEx (initState cfgEx.seed) (⟨false, [some "/a"]⟩ : PageReport) =
      runVisit cfgEx (initState cfgEx.seed)
        ⟨true, (⟨false, [some "/a"]⟩ : PageReport).anchors⟩ ∧
    ((⟨false, [some "/a"]⟩ : PageReport).anchors = [] →
      (runVisit cfgEx (initState cfgEx.seed)
        (⟨false, [some "/a"]⟩ : PageReport)).links =
        (initState cfgEx.seed).links) ∧
    crawlGo cfgEx inputFailA randZero 1 0 (initState cfgEx.seed) =
      crawlGo cfgEx (fun _ => (⟨true, [some "/a"]⟩ : PageReport)) randZero 1 0
        (initState cfgEx.seed)) :=
  ⟨rfl, fun _ => rfl,
    c7_navigation_failure_amended cfgEx (initState cfgEx.seed)
      ⟨false, [some "/a"]⟩ rfl inputFailA
      (fun _ => (⟨true, [some "/a"]⟩ : PageReport)) (fun _ => rfl)
      randZero 1 0 (initState cfgEx.seed)⟩

/-- C8 counterexample: the seed enters the visit set as given — here a
reachable visit-set element carries a fragment, has a denylisted
extension and an out-of-scope hostname, so "every Link in the Frontier
has passed filtering and is fragment-free, including the seed" fails. -/
theorem c8_link_invariant_counterexample :
    cfgPdf.seed ∈ ((crawlTrace cfgPdf inputEmpty randZero 1).getD 0
      (initState cfgPdf.seed)).visits ∧
    '#' ∈ cfgPdf.seed.toList ∧
    shouldSkipUrl cfgPdf.seed = some true ∧
    (parseAbsolute cfgPdf.seed).map (fun u => isInScopeL u.host cfgPdf.domain) =
      some false := by
  decide

/-- C8 amended: every discovered link has passed scope and extension
filtering and is a normalized fragment-free URL; every visited link is
either a discovered link (hence of that form) or the seed itself,
which enters the visit set as given, unnormalized and unfiltered. -/
theorem c8_link_invariant_amended (cfg : Config) (input : ℕ → PageReport)
    (rand : ℕ → ℚ) (maxPages : ℕ)
    (hr : ∀ k : ℕ, 0 ≤ rand k ∧ rand k < 1) :
    ∀ s ∈ crawlTrace cfg input rand maxPages,
      (∀ l ∈ s.links, acceptedLink cfg l) ∧
      (∀ v ∈ s.visits, v ∈ s.links ∨ v = cfg.seed) := by
  intro s hs
  unfold crawlTrace crawlRun at hs
  constructor
  · exact crawlGo_links_inv cfg input rand maxPages 0 (initState cfg.seed)
      (by intro l hl; simp [initState] at hl) s hs
  · exact crawlGo_visits_inv cfg input rand hr maxPages 0 (initState cfg.seed)
      (by intro v hv; simp [initState] at hv) (Or.inr rfl) s hs

/-- C8 amended witness: the amended invariant at a concrete run. -/
theorem c8_link_invariant_amended_witness :
    (∀ k : ℕ, 0 ≤ randZero k ∧ randZero k < 1) ∧
    (∀ s ∈ crawlTrace cfgEx inputFailA randZero 1,
      (∀ l ∈ s.links, acceptedLink cfgEx l) ∧
      (∀ v ∈ s.visits, v ∈ s.links ∨ v = cfgEx.seed)) :=
  ⟨fun _ => ⟨le_refl 0, by norm_num [randZero]⟩,
    c8_link_invariant_amended cfgEx inputFailA randZero 1
      (fun _ => ⟨le_refl 0, by norm_num [randZero]⟩)⟩

/-- C9: the frontier selection computes the set difference
`DiscoveredSet − VisitSet`, signals exhaustion exactly when it is
empty, and otherwise returns the element at index `⌊r·n⌋`, where index
`j` is selected exactly for draws in `[j/n, (j+1)/n)` — intervals of
equal length, i.e. a uniform choice over the unvisited snapshot for a
uniform draw. -/
theorem c9_next_unvisited (st : CrawlState) (r : ℚ) (h0 : 0 ≤ r)
    (h1 : r < 1) :
    (nextUnvisited st r = none ↔ unvisited st = []) ∧
    (∀ l : String, l ∈ unvisited st ↔ l ∈ st.links ∧ l ∉ st.visits) ∧
    (unvisited st ≠ [] →
      ∃ hlt : pickIndex r (unvisited st).length < (unvisited st).length,
        nextUnvisited st r =
          some ((unvisited st).get ⟨pickIndex r (unvisited st).length, hlt⟩)) ∧
    (∀ j : ℕ, j < (unvisited st).length →
      (pickIndex r (unvisited st).length = j ↔
        ((j : ℚ) / (unvisited st).length ≤ r ∧
          r < ((j : ℚ) + 1) / (unvisited st).length))) := by
  refine ⟨nextUnvisited_none_iff st r, fun l => mem_unvisited, ?_, ?_⟩
  · intro hne
    have hn : 0 < (unvisited st).length := List.length_pos.mpr hne
    refine ⟨pickIndex_lt h0 h1 hn, ?_⟩
    unfold nextUnvisited
    rw [if_neg hne, getD_eq_get _ _ _ (pickIndex_lt h0 h1 hn)]
  · intro j hj
    exact pickIndex_eq_iff j h0 (Nat.lt_of_le_of_lt (Nat.zero_le j) hj)

/-- C9 witness: the frontier-selection theorem at a concrete state and
the legal draw `0`. -/
theorem c9_next_unvisited_witness :
    (0 ≤ (0 : ℚ)) ∧ ((0 : ℚ) < 1) ∧
    ((nextUnvisited stEx 0 = none ↔ unvisited stEx = []) ∧
      (∀ l : String, l ∈ unvisited stEx ↔ l ∈ stEx.links ∧ l ∉ stEx.visits) ∧
      (unvisited stEx ≠ [] →
        ∃ hlt : pickIndex 0 (unvisited stEx).length < (unvisited stEx).length,
          nextUnvisited stEx 0 =
            some ((unvisited stEx).get
              ⟨pickIndex 0 (unvisited stEx).length, hlt⟩)) ∧
      (∀ j : ℕ, j < (unvisited stEx).length →
        (pickIndex 0 (unvisited stEx).length = j ↔
          ((j : ℚ) / (unvisited stEx).length ≤ 0 ∧
            (0 : ℚ) < ((j : ℚ) + 1) / (unvisited stEx).length)))) :=
  ⟨le_refl 0, by norm_num, c9_next_unvisited stEx 0 (le_refl 0) (by norm_num)⟩

/-- C10: anchor hrefs are resolved against the original seed URL, not
the page being visited — the links produced by an iteration do not
depend on the current target, and every accepted link is the
fragment-cleared resolution of its href against the seed. -/
theorem c10_resolution_base (cfg : Config) (ls vs1 vs2 : List String)
    (p1 p2 : String) (rep : PageReport) (href l : String)
    (hacc : acceptAnchor cfg href = some l) :
    (runVisit cfg ⟨ls, vs1, p1⟩ rep).links =
      (runVisit cfg ⟨ls, vs2, p2⟩ rep).links ∧
    ∃ u : Url, resolve href cfg.seed = some u ∧ l = (clearFrag u).href := by
  refine ⟨rfl, ?_⟩
  obtain ⟨u, hu, hl, _, _⟩ := acceptAnchor_some hacc
  exact ⟨u, hu, hl⟩

/-- C10 witness: the same relative href `/a` accepted from two
different current pages yields the same link, resolved against the
seed. -/
theorem c10_resolution_base_witness :
    acceptAnchor cfgEx "/a" = some "https://example.com/a" ∧
    ((runVisit cfgEx ⟨[], [], "https://p1/"⟩ ⟨true, [some "/a"]⟩).links =
        (runVisit cfgEx ⟨[], ["v"], "https://p2/"⟩ ⟨true, [some "/a"]⟩).links ∧
      ∃ u : Url, resolve "/a" cfgEx.seed = some u ∧
        "https://example.com/a" = (clearFrag u).href) :=
  ⟨by decide,
    c10_resolution_base cfgEx [] [] ["v"] "https://p1/" "https://p2/"
      ⟨true, [some "/a"]⟩ "/a" "https://example.com/a" (by decide)⟩

end Webprobe
